import Mathlib

/-!
Verification of the Gambit bounds-checked array (`sources/libgambit/array.h`).

A shallow embedding of `Gambit::Array<T>`, a contiguous array addressed by an
inclusive integer range `[mindex, maxdex]`, together with its read-only
iterator `Gambit::ArrayPtrConstIterator<T>`.

Modelling choices:
* The C++ object holds `int mindex, maxdex; T *data`, where `data` points to a
  buffer of `maxdex - mindex + 1` elements addressed so that logical index `i`
  reads physical slot `i - mindex`.  We model the state as `mindex : Int` plus
  the list of stored elements (physical slot `k` = list position `k`), and
  recover `maxdex` as `mindex + data.length - 1`.  Every reachable state of the
  C++ object satisfies `maxdex ≥ mindex - 1` with buffer length exactly
  `maxdex - mindex + 1` (null when empty), so this representation is faithful.
* A C++ method that can throw and/or mutate is embedded as a function
  returning the result (`Except` for a throwing method) together with the
  post-state.  An exception thrown by a validation guard leaves the object at
  the state it had when the guard fired; in `array.h` every guard runs before
  any mutation, so the error branches below return the pre-state unchanged.
* `new T[...]` default-initializes its elements, hence the `Inhabited`
  instances and `default`.
* Machine `int` is modelled as `Int` (no operation here can overflow the
  32-bit range for the list sizes involved; indices are pure arithmetic).
-/

namespace Gambit

/-- The two exception kinds of `libgambit`: `IndexException` (out-of-range
index) and `RangeException` (invalid construction range). -/
inductive GambitError where
  | indexError
  | rangeError
deriving DecidableEq

/-- Shallow embedding of `Gambit::Array<T>`: the lowest valid index `mindex`
and the stored elements, with physical slot `k` holding logical index
`mindex + k`.  `maxdex` from the C++ object is `mindex + data.length - 1`. -/
structure Array (T : Type) where
  mindex : Int
  data : List T
deriving DecidableEq

namespace Array

variable {T : Type}

/-- The highest valid index (`maxdex` field of the C++ object). -/
def maxdex (a : Array T) : Int := a.mindex + a.data.length - 1

/-- Embeds `int Length(void) const { return maxdex - mindex + 1; }` -/
def Length (a : Array T) : Int := a.maxdex - a.mindex + 1

/-- Embeds `int First(void) const { return mindex; }` -/
def First (a : Array T) : Int := a.mindex

/-- Embeds `int Last(void) const { return maxdex; }` -/
def Last (a : Array T) : Int := a.maxdex

/-- Embeds `const T &operator[](int index) const`: throws `IndexException` when
`index < mindex || index > maxdex`, otherwise reads `data[index]`
(physical slot `index - mindex`). -/
def get [Inhabited T] (a : Array T) (index : Int) : Except GambitError T :=
  if index < a.mindex ∨ index > a.maxdex then .error .indexError
  else .ok (a.data.getD (index - a.mindex).toNat default)

/-- Embeds `int InsertAt(const T &t, int n)`: throws `IndexException` when
`mindex > n || n > maxdex + 1` (before any mutation); otherwise allocates a
buffer one larger, copies slots `[mindex, n-1]`, places `t` at `n`, copies the
old slots `[n, old maxdex]` shifted up by one, increments `maxdex`, and
returns `n`.  The two copy loops plus the placement are exactly
`List.insertIdx` at physical position `n - mindex`. -/
def InsertAt (a : Array T) (t : T) (n : Int) :
    Except GambitError Int × Array T :=
  if a.mindex > n ∨ n > a.maxdex + 1 then (.error .indexError, a)
  else (.ok n, ⟨a.mindex, a.data.insertIdx (n - a.mindex).toNat t⟩)

/-- Embeds `int Append(const T &t) { return InsertAt(t, this->maxdex + 1); }` -/
def Append (a : Array T) (t : T) : Except GambitError Int × Array T :=
  a.InsertAt t (a.maxdex + 1)

/-- The clamping expression of `Insert`:
`(n < mindex) ? mindex : ((n > maxdex + 1) ? maxdex + 1 : n)`. -/
def clamp (a : Array T) (n : Int) : Int :=
  if n < a.mindex then a.mindex
  else if n > a.maxdex + 1 then a.maxdex + 1 else n

/-- Embeds `int Insert(const T &t, int n)`: delegates to `InsertAt` at the clamped
position. -/
def Insert (a : Array T) (t : T) (n : Int) :
    Except GambitError Int × Array T :=
  a.InsertAt t (a.clamp n)

/-- Embeds `T Remove(int n)`: throws `IndexException` when
`n < mindex || n > maxdex` (before any mutation); otherwise saves `data[n]`,
decrements `maxdex`, allocates the smaller buffer (null when now empty),
copies slots `[mindex, n-1]` then slots shifted down from above `n` — i.e.
`List.eraseIdx` at physical position `n - mindex` — and returns the saved
element. -/
def Remove [Inhabited T] (a : Array T) (n : Int) :
    Except GambitError T × Array T :=
  if n < a.mindex ∨ n > a.maxdex then (.error .indexError, a)
  else (.ok (a.data.getD (n - a.mindex).toNat default),
        ⟨a.mindex, a.data.eraseIdx (n - a.mindex).toNat⟩)

/-- Embeds `int Find(const T &t) const`: scans `i` upward from `mindex` while
`i <= maxdex && data[i] != t`; returns `i` if it stopped at a match
(`i <= maxdex`), else `mindex - 1`. -/
def Find [DecidableEq T] (a : Array T) (t : T) : Int :=
  match a.data.findIdx? (fun x => x = t) with
  | some k => a.mindex + k
  | none => a.mindex - 1

/-- Embeds `bool Contains(const T &t) const { return Find(t) != mindex-1; }` -/
def Contains [DecidableEq T] (a : Array T) (t : T) : Bool :=
  a.Find t != a.mindex - 1

/-- Embeds `bool operator==(const Array<T> &a) const`: false when the ranges differ,
otherwise compares the elements index by index over the common range
(`maxdex - mindex + 1 = data.length` slots). -/
def beq [DecidableEq T] [Inhabited T] (a b : Array T) : Bool :=
  if a.mindex ≠ b.mindex ∨ a.maxdex ≠ b.maxdex then false
  else (List.range a.data.length).all
    (fun k => a.data.getD k default == b.data.getD k default)

/-- Embeds `Array(int lo, int hi)`: throws `RangeException` when `maxdex + 1 <
mindex`; otherwise allocates `maxdex - mindex + 1` default-initialized
elements (null buffer when `maxdex < mindex`, i.e. `hi = lo - 1`). -/
def Construct (T : Type) [Inhabited T] (lo hi : Int) :
    Except GambitError (Array T) :=
  if hi + 1 < lo then .error .rangeError
  else .ok ⟨lo, List.replicate (hi - lo + 1).toNat default⟩

/-- Embeds `Array<T> &operator=(const Array<T> &a)` on distinct objects
(`this != &a`): reallocates — releasing the old buffer, adopting `a`'s range
and allocating `maxdex - mindex + 1` fresh slots — exactly when the receiver
has no buffer (`!data`, i.e. it is empty) or the ranges differ; otherwise the
existing buffer is kept.  Either way the element loop then overwrites every
slot of the receiver's (possibly new) range with `a`'s element at the same
logical index.  The returned `Bool` records whether fresh storage was
allocated. -/
def assign [Inhabited T] (a b : Array T) : Array T × Bool :=
  if a.data.isEmpty ∨ (a.mindex ≠ b.mindex ∨ a.maxdex ≠ b.maxdex) then
    (⟨b.mindex, (List.range (b.maxdex - b.mindex + 1).toNat).map
        (fun k => b.data.getD k default)⟩, true)
  else
    (⟨a.mindex, (List.range a.data.length).map
        (fun k => b.data.getD k default)⟩, false)

end Array

/-- Shallow embedding of `Gambit::ArrayPtrConstIterator<T>`: a borrowed array
(of pointers, modelled by the pointed-to values, since the iterator only ever
dereferences them) plus the cursor `m_index`. -/
structure ArrayPtrConstIterator (T : Type) where
  m_array : Array T
  m_index : Int

namespace ArrayPtrConstIterator

variable {T : Type}

/-- The constructor: `m_array(p_array), m_index(m_array.First())`. -/
def ofArray (p_array : Array T) : ArrayPtrConstIterator T :=
  ⟨p_array, p_array.First⟩

/-- Embeds `void operator++(void) { m_index++; }` (prefix). -/
def advance (it : ArrayPtrConstIterator T) : ArrayPtrConstIterator T :=
  { it with m_index := it.m_index + 1 }

/-- Embeds `void operator++(int) { m_index++; }` (postfix). -/
def advancePost (it : ArrayPtrConstIterator T) : ArrayPtrConstIterator T :=
  { it with m_index := it.m_index + 1 }

/-- Embeds `bool AtEnd(void) const { return m_index > m_array.Last(); }` -/
def AtEnd (it : ArrayPtrConstIterator T) : Bool :=
  it.m_index > it.m_array.Last

/-- Embeds `T &operator*(void) const { return *(m_array[m_index]); }`: the read goes
through the array's `operator[]`, hence through its bounds check. -/
def deref [Inhabited T] (it : ArrayPtrConstIterator T) : Except GambitError T :=
  it.m_array.get it.m_index

end ArrayPtrConstIterator

end Gambit

namespace Gambit

namespace Array

variable {T : Type}

theorem maxdex_eq (a : Array T) : a.maxdex = a.mindex + a.data.length - 1 := rfl

theorem length_eq (a : Array T) : a.Length = (a.data.length : Int) := by
  simp only [Length, maxdex]
  omega

theorem get_in_range [Inhabited T] (a : Array T) (i : Int)
    (h1 : a.mindex ≤ i) (h2 : i ≤ a.maxdex) :
    a.get i = .ok (a.data.getD (i - a.mindex).toNat default) := by
  unfold get
  rw [if_neg (by omega)]

theorem get_out_of_range [Inhabited T] (a : Array T) (i : Int)
    (h : i < a.mindex ∨ a.maxdex < i) :
    a.get i = .error .indexError := by
  unfold get
  rw [if_pos (by omega)]

theorem pos_lt_length (a : Array T) (i : Int)
    (h1 : a.mindex ≤ i) (h2 : i ≤ a.maxdex) :
    (i - a.mindex).toNat < a.data.length := by
  have := a.maxdex_eq
  omega



theorem getD_insertIdx_lt [Inhabited T] (l : List T) (x : T) (p k : Nat)
    (h : k < p) (hk : k < l.length) :
    (l.insertIdx p x).getD k default = l.getD k default := by
  have hk' : k < (l.insertIdx p x).length :=
    lt_of_lt_of_le hk (List.length_le_length_insertIdx l x p)
  rw [List.getD_eq_getElem _ _ hk', List.getD_eq_getElem _ _ hk,
    List.getElem_insertIdx_of_lt l x p k h hk]

theorem getD_insertIdx_self [Inhabited T] (l : List T) (x : T) (p : Nat)
    (hp : p ≤ l.length) :
    (l.insertIdx p x).getD p default = x := by
  have hl : (l.insertIdx p x).length = l.length + 1 :=
    List.length_insertIdx p l hp
  have hp' : p < (l.insertIdx p x).length := by omega
  rw [List.getD_eq_getElem _ _ hp', List.getElem_insertIdx_self l x p hp]

theorem getD_insertIdx_add_succ [Inhabited T] (l : List T) (x : T) (p k : Nat)
    (h : p + k < l.length) :
    (l.insertIdx p x).getD (p + k + 1) default = l.getD (p + k) default := by
  have hl : (l.insertIdx p x).length = l.length + 1 :=
    List.length_insertIdx p l (by omega)
  have h1 : p + k + 1 < (l.insertIdx p x).length := by omega
  rw [List.getD_eq_getElem _ _ h1, List.getD_eq_getElem _ _ h,
    List.getElem_insertIdx_add_succ l x p k h]

/-- The array produced by a successful `InsertAt`. -/
def inserted (a : Array T) (t : T) (n : Int) : Array T :=
  ⟨a.mindex, a.data.insertIdx (n - a.mindex).toNat t⟩

theorem inserted_maxdex (a : Array T) (t : T) (n : Int)
    (h1 : a.mindex ≤ n) (h2 : n ≤ a.maxdex + 1) :
    (a.inserted t n).maxdex = a.maxdex + 1 := by
  have hm := a.maxdex_eq
  have hp : (n - a.mindex).toNat ≤ a.data.length := by omega
  have := List.length_insertIdx (a := t) (n - a.mindex).toNat a.data hp
  simp only [inserted, maxdex] at *
  omega

theorem inserted_mindex (a : Array T) (t : T) (n : Int) :
    (a.inserted t n).mindex = a.mindex := rfl

theorem inserted_get_self [Inhabited T] (a : Array T) (t : T) (n : Int)
    (h1 : a.mindex ≤ n) (h2 : n ≤ a.maxdex + 1) :
    (a.inserted t n).get n = .ok t := by
  have hm := a.maxdex_eq
  have hmax := a.inserted_maxdex t n h1 h2
  have hmi := a.inserted_mindex t n
  rw [get_in_range (a.inserted t n) n (by omega) (by omega), hmi]
  simp only [inserted]
  rw [getD_insertIdx_self a.data t (n - a.mindex).toNat (by omega)]

theorem inserted_get_below [Inhabited T] (a : Array T) (t : T) (n i : Int)
    (h1 : a.mindex ≤ n) (h2 : n ≤ a.maxdex + 1)
    (hi1 : a.mindex ≤ i) (hi2 : i < n) :
    (a.inserted t n).get i = a.get i := by
  have hm := a.maxdex_eq
  have hmax := a.inserted_maxdex t n h1 h2
  have hmi := a.inserted_mindex t n
  rw [get_in_range (a.inserted t n) i (by omega) (by omega),
    get_in_range a i hi1 (by omega), hmi]
  simp only [inserted]
  rw [getD_insertIdx_lt a.data t (n - a.mindex).toNat (i - a.mindex).toNat
    (by omega) (by omega)]

theorem inserted_get_above [Inhabited T] (a : Array T) (t : T) (n i : Int)
    (h1 : a.mindex ≤ n) (h2 : n ≤ a.maxdex + 1)
    (hi1 : n ≤ i) (hi2 : i ≤ a.maxdex) :
    (a.inserted t n).get (i + 1) = a.get i := by
  have hm := a.maxdex_eq
  have hmax := a.inserted_maxdex t n h1 h2
  have hmi := a.inserted_mindex t n
  rw [get_in_range (a.inserted t n) (i + 1) (by omega) (by omega),
    get_in_range a i (by omega) (by omega), hmi]
  simp only [inserted]
  have e1 : (i + 1 - a.mindex).toNat
      = (n - a.mindex).toNat + (i - n).toNat + 1 := by omega
  have e2 : (i - a.mindex).toNat
      = (n - a.mindex).toNat + (i - n).toNat := by omega
  rw [e1, e2, getD_insertIdx_add_succ a.data t (n - a.mindex).toNat
    (i - n).toNat (by omega)]

theorem InsertAt_ok (a : Array T) (t : T) (n : Int)
    (h1 : a.mindex ≤ n) (h2 : n ≤ a.maxdex + 1) :
    a.InsertAt t n = (.ok n, a.inserted t n) := by
  unfold InsertAt inserted
  rw [if_neg (by omega)]

theorem clamp_bounds (a : Array T) (n : Int) :
    a.mindex ≤ a.clamp n ∧ a.clamp n ≤ a.maxdex + 1 := by
  have hm := a.maxdex_eq
  unfold clamp
  split
  · omega
  · split <;> omega

theorem clamp_of_lt (a : Array T) (n : Int) (h : n < a.mindex) :
    a.clamp n = a.mindex := by
  unfold clamp
  rw [if_pos h]

theorem clamp_of_gt (a : Array T) (n : Int) (h : n > a.maxdex + 1) :
    a.clamp n = a.maxdex + 1 := by
  have hm := a.maxdex_eq
  unfold clamp
  rw [if_neg (by omega), if_pos h]

theorem clamp_of_mem (a : Array T) (n : Int)
    (h1 : a.mindex ≤ n) (h2 : n ≤ a.maxdex + 1) :
    a.clamp n = n := by
  unfold clamp
  rw [if_neg (by omega), if_neg (by omega)]

/-- C1: `Insert(v, n)` clamps `n` into `[first, last+1]` (below snaps to
`first`, above snaps to `last+1`), returns the resolved index, inserts `v`
there (reading the returned index yields `v`), keeps `First` and grows
`Length` by exactly one, shifts the elements at or after the resolved
position up by one index, and leaves the elements before it in place — so
the relative order of all pre-existing elements is preserved. -/
theorem insert_spec [Inhabited T] (a : Array T) (v : T) (n : Int) :
    (n < a.First → a.clamp n = a.First) ∧
    (n > a.Last + 1 → a.clamp n = a.Last + 1) ∧
    (a.First ≤ n → n ≤ a.Last + 1 → a.clamp n = n) ∧
    (a.Insert v n).1 = .ok (a.clamp n) ∧
    (a.Insert v n).2.First = a.First ∧
    (a.Insert v n).2.Length = a.Length + 1 ∧
    (a.Insert v n).2.get (a.clamp n) = .ok v ∧
    (∀ i, a.First ≤ i → i < a.clamp n → (a.Insert v n).2.get i = a.get i) ∧
    (∀ i, a.clamp n ≤ i → i ≤ a.Last → (a.Insert v n).2.get (i + 1) = a.get i) := by
  obtain ⟨hc1, hc2⟩ := a.clamp_bounds n
  have hins := a.InsertAt_ok v (a.clamp n) hc1 hc2
  have hmax := a.inserted_maxdex v (a.clamp n) hc1 hc2
  have hmi := a.inserted_mindex v (a.clamp n)
  refine ⟨a.clamp_of_lt n, a.clamp_of_gt n, a.clamp_of_mem n, ?_, ?_, ?_, ?_, ?_, ?_⟩
  · simp only [Insert, hins]
  · simp only [Insert, hins, First, hmi]
  · simp only [Insert, hins, Length, hmi, hmax]
    ring
  · simp only [Insert, hins]
    exact a.inserted_get_self v (a.clamp n) hc1 hc2
  · intro i hi1 hi2
    simp only [Insert, hins]
    exact a.inserted_get_below v (a.clamp n) i hc1 hc2 hi1 hi2
  · intro i hi1 hi2
    simp only [Insert, hins]
    exact a.inserted_get_above v (a.clamp n) i hc1 hc2 hi1 hi2

theorem insert_spec_witness :
    ((⟨1, [10, 20, 30]⟩ : Array Int).Insert 15 2).1
      = .ok ((⟨1, [10, 20, 30]⟩ : Array Int).clamp 2) ∧
    ((⟨1, [10, 20, 30]⟩ : Array Int).Insert 15 2).2.get
        ((⟨1, [10, 20, 30]⟩ : Array Int).clamp 2) = .ok 15 :=
  ⟨(insert_spec (⟨1, [10, 20, 30]⟩ : Array Int) 15 2).2.2.2.1,
    (insert_spec (⟨1, [10, 20, 30]⟩ : Array Int) 15 2).2.2.2.2.2.2.1⟩

/-- C3: `Append(v)` returns the post-call `Last` (the pre-call `last + 1`),
the returned index then reads back `v`, every previously stored element is
unchanged at its index, and `Length` grows by exactly one. -/
theorem append_spec [Inhabited T] (a : Array T) (v : T) :
    (a.Append v).1 = .ok ((a.Append v).2.Last) ∧
    (a.Append v).2.Last = a.Last + 1 ∧
    (a.Append v).2.First = a.First ∧
    (a.Append v).2.get (a.Last + 1) = .ok v ∧
    (∀ i, a.First ≤ i → i ≤ a.Last → (a.Append v).2.get i = a.get i) ∧
    (a.Append v).2.Length = a.Length + 1 := by
  have hm := a.maxdex_eq
  have h1 : a.mindex ≤ a.maxdex + 1 := by omega
  have hins := a.InsertAt_ok v (a.maxdex + 1) h1 le_rfl
  have hmax := a.inserted_maxdex v (a.maxdex + 1) h1 le_rfl
  have hmi := a.inserted_mindex v (a.maxdex + 1)
  refine ⟨?_, ?_, ?_, ?_, ?_, ?_⟩
  · simp only [Append, hins, Last, hmax]
  · simp only [Append, hins, Last, hmax]
  · simp only [Append, hins, First, hmi]
  · simp only [Append, hins, Last]
    exact a.inserted_get_self v (a.maxdex + 1) h1 le_rfl
  · intro i hi1 hi2
    simp only [Append, hins]
    exact a.inserted_get_below v (a.maxdex + 1) i h1 le_rfl hi1 (by
      simp only [Last] at hi2; omega)
  · simp only [Append, hins, Length, hmi, hmax]
    ring

theorem append_spec_witness :
    ((⟨1, [10, 20, 30]⟩ : Array Int).Append 5).2.get
        ((⟨1, [10, 20, 30]⟩ : Array Int).Last + 1) = .ok 5 :=
  (append_spec (⟨1, [10, 20, 30]⟩ : Array Int) 5).2.2.2.1

/-- C10: for any target index strictly above `Last()` — in particular
`Last() + 1` — `Insert(v, n)` and `Append(v)` are the very same operation:
both delegate to `InsertAt` at position `last + 1`, so the returned index and
the entire resulting array state coincide. -/
theorem insert_high_eq_append (a : Array T) (v : T) (n : Int)
    (h : a.Last < n) :
    a.Insert v n = a.Append v := by
  have hm := a.maxdex_eq
  have hL : a.Last = a.maxdex := rfl
  have hc : a.clamp n = a.maxdex + 1 := by
    unfold clamp
    rw [if_neg (by omega)]
    split
    · rfl
    · omega
  unfold Insert Append
  rw [hc]

theorem insert_high_eq_append_witness :
    (1 : Int) < 3 ∧
      (⟨1, [5]⟩ : Array Int).Insert 7 3 = (⟨1, [5]⟩ : Array Int).Append 7 :=
  ⟨by decide, insert_high_eq_append _ 7 3 (by decide)⟩

theorem getD_eraseIdx_lt [Inhabited T] (l : List T) (p k : Nat)
    (h : k < p) (hk : k < l.length) (hp : p < l.length) :
    (l.eraseIdx p).getD k default = l.getD k default := by
  have hl : (l.eraseIdx p).length = l.length - 1 := by
    rw [List.length_eraseIdx]
    simp [hp]
  have hk' : k < (l.eraseIdx p).length := by omega
  rw [List.getD_eq_getElem _ _ hk', List.getD_eq_getElem _ _ hk,
    List.getElem_eraseIdx]
  simp [h]

theorem getD_eraseIdx_ge [Inhabited T] (l : List T) (p k : Nat)
    (h : p ≤ k) (hk : k + 1 < l.length) :
    (l.eraseIdx p).getD k default = l.getD (k + 1) default := by
  have hl : (l.eraseIdx p).length = l.length - 1 := by
    rw [List.length_eraseIdx]
    simp [show p < l.length by omega]
  have hk' : k < (l.eraseIdx p).length := by omega
  rw [List.getD_eq_getElem _ _ hk', List.getD_eq_getElem _ _ hk,
    List.getElem_eraseIdx]
  simp [show ¬ k < p by omega]

/-- The array produced by a successful `Remove`. -/
def removed (a : Array T) (n : Int) : Array T :=
  ⟨a.mindex, a.data.eraseIdx (n - a.mindex).toNat⟩

theorem removed_mindex (a : Array T) (n : Int) :
    (a.removed n).mindex = a.mindex := rfl

theorem Remove_ok [Inhabited T] (a : Array T) (n : Int)
    (h1 : a.mindex ≤ n) (h2 : n ≤ a.maxdex) :
    a.Remove n
      = (.ok (a.data.getD (n - a.mindex).toNat default), a.removed n) := by
  unfold Remove removed
  rw [if_neg (by omega)]

theorem removed_maxdex (a : Array T) (n : Int)
    (h1 : a.mindex ≤ n) (h2 : n ≤ a.maxdex) :
    (a.removed n).maxdex = a.maxdex - 1 := by
  have hm := a.maxdex_eq
  have hp : (n - a.mindex).toNat < a.data.length := a.pos_lt_length n h1 h2
  have hl : (a.data.eraseIdx (n - a.mindex).toNat).length
      = a.data.length - 1 := by
    rw [List.length_eraseIdx]
    simp [hp]
  simp only [removed, maxdex] at *
  omega

theorem removed_get_below [Inhabited T] (a : Array T) (n i : Int)
    (h1 : a.mindex ≤ n) (h2 : n ≤ a.maxdex)
    (hi1 : a.mindex ≤ i) (hi2 : i < n) :
    (a.removed n).get i = a.get i := by
  have hm := a.maxdex_eq
  have hmax := a.removed_maxdex n h1 h2
  have hmi := a.removed_mindex n
  rw [get_in_range (a.removed n) i (by omega) (by omega),
    get_in_range a i hi1 (by omega), hmi]
  simp only [removed]
  rw [getD_eraseIdx_lt a.data (n - a.mindex).toNat (i - a.mindex).toNat
    (by omega) (by omega) (a.pos_lt_length n h1 h2)]

theorem removed_get_above [Inhabited T] (a : Array T) (n i : Int)
    (h1 : a.mindex ≤ n) (h2 : n ≤ a.maxdex)
    (hi1 : n ≤ i) (hi2 : i ≤ a.maxdex - 1) :
    (a.removed n).get i = a.get (i + 1) := by
  have hm := a.maxdex_eq
  have hmax := a.removed_maxdex n h1 h2
  have hmi := a.removed_mindex n
  rw [get_in_range (a.removed n) i (by omega) (by omega),
    get_in_range a (i + 1) (by omega) (by omega), hmi]
  simp only [removed]
  have e1 : (i + 1 - a.mindex).toNat = (i - a.mindex).toNat + 1 := by omega
  rw [e1, getD_eraseIdx_ge a.data (n - a.mindex).toNat (i - a.mindex).toNat
    (by omega) (by omega)]

/-- C2: for a valid index `n ∈ [first, last]`, `Remove(n)` returns exactly the
element previously read at `n`, keeps `First`, decrements `Last`, shrinks
`Length` by exactly one, keeps every element below `n` in place and shifts
every element above `n` down by one index (so none of the remaining elements
is duplicated or lost), and releases the storage when the array becomes
empty. -/
theorem remove_spec [Inhabited T] (a : Array T) (n : Int)
    (h1 : a.First ≤ n) (h2 : n ≤ a.Last) :
    (a.Remove n).1 = a.get n ∧
    (a.Remove n).2.First = a.First ∧
    (a.Remove n).2.Last = a.Last - 1 ∧
    (a.Remove n).2.Length = a.Length - 1 ∧
    (∀ i, a.First ≤ i → i < n → (a.Remove n).2.get i = a.get i) ∧
    (∀ i, n ≤ i → i ≤ a.Last - 1 → (a.Remove n).2.get i = a.get (i + 1)) ∧
    ((a.Remove n).2.Length = 0 → (a.Remove n).2.data = []) := by
  have hF : a.First = a.mindex := rfl
  have hL : a.Last = a.maxdex := rfl
  rw [hF] at h1
  rw [hL] at h2
  have hm := a.maxdex_eq
  have hrem := a.Remove_ok n h1 h2
  have hmax := a.removed_maxdex n h1 h2
  have hmi := a.removed_mindex n
  refine ⟨?_, ?_, ?_, ?_, ?_, ?_, ?_⟩
  · rw [hrem, get_in_range a n h1 h2]
  · simp only [hrem, First, hmi]
  · simp only [hrem, Last, hmax, hL]
  · simp only [hrem, Length, hmi, hmax, hL, hF]
    ring
  · intro i hi1 hi2
    rw [hrem]
    exact a.removed_get_below n i h1 h2 hi1 hi2
  · intro i hi1 hi2
    rw [hL] at hi2
    rw [hrem]
    exact a.removed_get_above n i h1 h2 hi1 hi2
  · intro hlen
    have := (a.removed n).length_eq
    rw [hrem] at hlen ⊢
    simp only at hlen this
    have : (a.removed n).data.length = 0 := by omega
    exact List.length_eq_zero.mp this

theorem remove_spec_witness :
    (⟨1, [10, 20, 30]⟩ : Array Int).First ≤ 2 ∧
      2 ≤ (⟨1, [10, 20, 30]⟩ : Array Int).Last ∧
      ((⟨1, [10, 20, 30]⟩ : Array Int).Remove 2).1
        = (⟨1, [10, 20, 30]⟩ : Array Int).get 2 :=
  ⟨by decide, by decide,
    (remove_spec (⟨1, [10, 20, 30]⟩ : Array Int) 2 (by decide) (by decide)).1⟩

theorem map_range_getD [Inhabited T] (l : List T) (m : Nat) (hm : m = l.length) :
    (List.range m).map (fun k => l.getD k default) = l := by
  subst hm
  apply List.ext_getElem
  · simp
  · intro i h1 h2
    simp only [List.getElem_map, List.getElem_range]
    rw [List.getD_eq_getElem _ _ h2]

theorem beq_iff [DecidableEq T] [Inhabited T] (a b : Array T) :
    a.beq b = true ↔ a = b := by
  unfold beq
  by_cases h : a.mindex ≠ b.mindex ∨ a.maxdex ≠ b.maxdex
  · rw [if_pos h]
    simp only [Bool.false_eq_true, false_iff]
    intro heq
    rw [heq] at h
    rcases h with h | h <;> exact h rfl
  · rw [if_neg h]
    push_neg at h
    obtain ⟨hmin, hmax⟩ := h
    have hma := a.maxdex_eq
    have hmb := b.maxdex_eq
    have hlen : a.data.length = b.data.length := by omega
    rw [List.all_eq_true]
    constructor
    · intro hall
      obtain ⟨am, ad⟩ := a
      obtain ⟨bm, bd⟩ := b
      simp only at hmin hlen hall ⊢
      subst hmin
      congr 1
      apply List.ext_getElem hlen
      intro i h1 h2
      have := hall i (by simpa using h1)
      rw [beq_iff_eq] at this
      rw [← List.getD_eq_getElem ad default h1, ← List.getD_eq_getElem bd default h2]
      exact this
    · intro heq k _
      rw [heq, beq_iff_eq]

/-- C4: appending `v` and then removing at the index `Append` returned (the
new `Last`, i.e. the old `Last + 1`) hands back `v` and restores an array
that the array's own equality test `operator==` declares equal to the
original. -/
theorem append_remove_roundtrip [DecidableEq T] [Inhabited T]
    (a : Array T) (v : T) :
    (a.Append v).1 = .ok (a.Last + 1) ∧
    ((a.Append v).2.Remove (a.Last + 1)).1 = .ok v ∧
    ((a.Append v).2.Remove (a.Last + 1)).2.beq a = true := by
  have hm := a.maxdex_eq
  have hL : a.Last = a.maxdex := rfl
  have h1 : a.mindex ≤ a.maxdex + 1 := by omega
  have hins := a.InsertAt_ok v (a.maxdex + 1) h1 le_rfl
  have hmax := a.inserted_maxdex v (a.maxdex + 1) h1 le_rfl
  have hmi := a.inserted_mindex v (a.maxdex + 1)
  have hrem := (a.inserted v (a.maxdex + 1)).Remove_ok (a.maxdex + 1)
    (by omega) (by omega)
  have hp : (a.maxdex + 1 - a.mindex).toNat = a.data.length := by omega
  have hdata : (a.inserted v (a.maxdex + 1)).data
      = a.data.insertIdx a.data.length v := by
    simp only [inserted, hp]
  have hposr : (a.maxdex + 1 - (a.inserted v (a.maxdex + 1)).mindex).toNat
      = a.data.length := by
    rw [hmi]
    omega
  refine ⟨?_, ?_, ?_⟩
  · simp only [Append, hins, hL]
  · simp only [Append, hins, hL, hrem, hposr, hdata]
    rw [getD_insertIdx_self a.data v a.data.length le_rfl]
  · simp only [Append, hins, hL, hrem]
    have : (a.inserted v (a.maxdex + 1)).removed (a.maxdex + 1) = a := by
      simp only [removed, hmi, hp, hdata]
      rw [List.eraseIdx_insertIdx a.data.length a.data]
    rw [this, beq_iff]

/-- C5: range construction fails with `RangeError` exactly when
`hi + 1 < lo`; otherwise it succeeds, and the resulting array has
`First() = lo`, `Last() = hi` and `Length() = hi - lo + 1` — zero when
`hi = lo - 1`, in which case no storage is allocated (the buffer is null). -/
theorem construct_spec (T : Type) [Inhabited T] (lo hi : Int) :
    (Construct T lo hi = .error .rangeError ↔ hi + 1 < lo) ∧
    (lo ≤ hi + 1 → ∃ a : Array T, Construct T lo hi = .ok a ∧
      a.First = lo ∧ a.Last = hi ∧ a.Length = hi - lo + 1 ∧
      (hi = lo - 1 → a.data = [])) := by
  by_cases h : hi + 1 < lo
  · constructor
    · simp [Construct, h]
    · intro hle
      omega
  · have hC : Construct T lo hi
        = .ok ⟨lo, List.replicate (hi - lo + 1).toNat default⟩ := by
      simp [Construct, h]
    constructor
    · simp [hC, h]
    · intro hle
      refine ⟨_, hC, rfl, ?_, ?_, ?_⟩
      · simp only [Last, maxdex, List.length_replicate]
        omega
      · rw [length_eq]
        simp only [List.length_replicate]
        omega
      · intro hempty
        simp only [hempty]
        simp

theorem construct_spec_witness :
    (1 : Int) ≤ 3 + 1 ∧ ∃ a : Array Int, Construct Int 1 3 = .ok a ∧
      a.First = 1 ∧ a.Last = 3 ∧ a.Length = 3 - 1 + 1 ∧
      (3 = (1 : Int) - 1 → a.data = []) :=
  ⟨by decide, (construct_spec Int 1 3).2 (by decide)⟩

/-- C6: reading with `Get` at an index outside `[First, Last]` and removing
at an index outside `[First, Last]` both fail with `IndexError`, and the
failed `Remove` leaves the array state completely unchanged — the bounds
check runs before any mutation (`Get` never mutates). -/
theorem out_of_range_spec [Inhabited T] (a : Array T) (i n : Int)
    (hi : i < a.First ∨ i > a.Last) (hn : n < a.First ∨ n > a.Last) :
    a.get i = .error .indexError ∧
    (a.Remove n).1 = .error .indexError ∧
    (a.Remove n).2 = a := by
  have hF : a.First = a.mindex := rfl
  have hL : a.Last = a.maxdex := rfl
  rw [hF, hL] at hi hn
  have hrem : a.Remove n = (.error .indexError, a) := by
    unfold Remove
    rw [if_pos (by omega)]
  exact ⟨a.get_out_of_range i (by omega), by rw [hrem], by rw [hrem]⟩

theorem out_of_range_spec_witness :
    ((4 : Int) < (⟨1, [10, 20, 30]⟩ : Array Int).First
        ∨ (4 : Int) > (⟨1, [10, 20, 30]⟩ : Array Int).Last) ∧
      ((0 : Int) < (⟨1, [10, 20, 30]⟩ : Array Int).First
        ∨ (0 : Int) > (⟨1, [10, 20, 30]⟩ : Array Int).Last) ∧
      ((⟨1, [10, 20, 30]⟩ : Array Int).get 4 = .error .indexError ∧
        ((⟨1, [10, 20, 30]⟩ : Array Int).Remove 0).1 = .error .indexError ∧
        ((⟨1, [10, 20, 30]⟩ : Array Int).Remove 0).2
          = (⟨1, [10, 20, 30]⟩ : Array Int)) :=
  ⟨by decide, by decide,
    out_of_range_spec (⟨1, [10, 20, 30]⟩ : Array Int) 4 0
      (by decide) (by decide)⟩

/-- C7: `Find(v)` returns the lowest index in `[first, last]` whose element
equals `v`, and returns exactly the sentinel `first - 1` when no element
equals `v` (for an empty array this sentinel equals `last`); `Contains(v)`
holds exactly when `Find(v)` differs from `first - 1`. -/
theorem find_contains_spec [DecidableEq T] [Inhabited T] (a : Array T) (v : T) :
    ((∃ i, a.First ≤ i ∧ i ≤ a.Last ∧ a.Find v = i ∧ a.get i = .ok v ∧
        (∀ j, a.First ≤ j → j < i → a.get j ≠ Except.ok v)) ∨
      (a.Find v = a.First - 1 ∧
        ∀ j, a.First ≤ j → j ≤ a.Last → a.get j ≠ Except.ok v)) ∧
    (a.Length = 0 → a.First - 1 = a.Last) ∧
    (a.Contains v = true ↔ a.Find v ≠ a.First - 1) := by
  have hF : a.First = a.mindex := rfl
  have hL : a.Last = a.maxdex := rfl
  have hm := a.maxdex_eq
  refine ⟨?_, ?_, ?_⟩
  · cases hfd : a.data.findIdx? (fun x => x = v) with
    | some k =>
      left
      have hFind : a.Find v = a.mindex + k := by
        unfold Find
        rw [hfd]
      have hk' := hfd
      rw [List.findIdx?_eq_some_iff_findIdx_eq] at hk'
      obtain ⟨hk, hfi⟩ := hk'
      obtain ⟨hpk, hplt⟩ := (List.findIdx_eq hk).mp hfi
      simp only [decide_eq_true_eq] at hpk
      refine ⟨a.mindex + k, by omega, by omega, hFind, ?_, ?_⟩
      · rw [get_in_range a (a.mindex + k) (by omega) (by omega)]
        have e1 : (a.mindex + k - a.mindex).toNat = k := by omega
        rw [e1, List.getD_eq_getElem a.data default hk, hpk]
      · intro j hj1 hj2 hcon
        rw [hF] at hj1
        have hjk : (j - a.mindex).toNat < k := by omega
        rw [get_in_range a j hj1 (by omega)] at hcon
        have hfal := hplt (j - a.mindex).toNat hjk
        rw [decide_eq_false_iff_not] at hfal
        rw [List.getD_eq_getElem a.data default (by omega)] at hcon
        exact hfal (Except.ok.inj hcon)
    | none =>
      right
      have hFind : a.Find v = a.mindex - 1 := by
        unfold Find
        rw [hfd]
      rw [List.findIdx?_eq_none_iff] at hfd
      refine ⟨by rw [hFind, hF], ?_⟩
      intro j hj1 hj2 hcon
      rw [hF] at hj1
      rw [hL] at hj2
      rw [get_in_range a j hj1 hj2] at hcon
      have hlt : (j - a.mindex).toNat < a.data.length := by omega
      rw [List.getD_eq_getElem a.data default hlt] at hcon
      have := hfd (a.data[(j - a.mindex).toNat]) (List.getElem_mem hlt)
      rw [decide_eq_false_iff_not] at this
      exact this (Except.ok.inj hcon)
  · intro hlen
    rw [length_eq] at hlen
    rw [hF, hL]
    omega
  · rw [Contains, hF, bne_iff_ne]

theorem find_contains_spec_witness :
    ((∃ i, (⟨1, [10, 20, 30]⟩ : Array Int).First ≤ i ∧
        i ≤ (⟨1, [10, 20, 30]⟩ : Array Int).Last ∧
        (⟨1, [10, 20, 30]⟩ : Array Int).Find 20 = i ∧
        (⟨1, [10, 20, 30]⟩ : Array Int).get i = .ok 20 ∧
        (∀ j, (⟨1, [10, 20, 30]⟩ : Array Int).First ≤ j → j < i →
          (⟨1, [10, 20, 30]⟩ : Array Int).get j ≠ Except.ok 20)) ∨
      ((⟨1, [10, 20, 30]⟩ : Array Int).Find 20
          = (⟨1, [10, 20, 30]⟩ : Array Int).First - 1 ∧
        ∀ j, (⟨1, [10, 20, 30]⟩ : Array Int).First ≤ j →
          j ≤ (⟨1, [10, 20, 30]⟩ : Array Int).Last →
          (⟨1, [10, 20, 30]⟩ : Array Int).get j ≠ Except.ok 20)) ∧
    ((⟨1, [10, 20, 30]⟩ : Array Int).Length = 0 →
      (⟨1, [10, 20, 30]⟩ : Array Int).First - 1
        = (⟨1, [10, 20, 30]⟩ : Array Int).Last) ∧
    ((⟨1, [10, 20, 30]⟩ : Array Int).Contains 20 = true ↔
      (⟨1, [10, 20, 30]⟩ : Array Int).Find 20
        ≠ (⟨1, [10, 20, 30]⟩ : Array Int).First - 1) :=
  find_contains_spec (⟨1, [10, 20, 30]⟩ : Array Int) 20

/-- C8: `operator=` on distinct objects is a deep copy — the receiver takes
on `b`'s bounds and elements exactly.  Fresh storage is allocated exactly
when the receiver had no buffer or a different range; equivalently, the
existing buffer is reused (`assign` reports `false`, no reallocation) exactly
when the receiver's range already equals `b`'s and it has allocated
storage. -/
theorem assign_spec [Inhabited T] (a b : Array T) :
    (a.assign b).1 = b ∧
    ((a.assign b).2 = false ↔
      (a.First = b.First ∧ a.Last = b.Last ∧ a.data ≠ [])) := by
  have hma := a.maxdex_eq
  have hmb := b.maxdex_eq
  have hF : ∀ c : Array T, c.First = c.mindex := fun _ => rfl
  have hL : ∀ c : Array T, c.Last = c.maxdex := fun _ => rfl
  unfold assign
  by_cases h : a.data.isEmpty ∨ (a.mindex ≠ b.mindex ∨ a.maxdex ≠ b.maxdex)
  · rw [if_pos h]
    constructor
    · show Array.mk b.mindex _ = b
      rw [map_range_getD b.data _ (by omega)]
    · simp only [Bool.true_eq_false, false_iff]
      intro ⟨h1, h2, h3⟩
      rw [hF a, hF b] at h1
      rw [hL a, hL b] at h2
      rcases h with h | h | h
      · rw [List.isEmpty_iff] at h
        exact h3 h
      · exact h h1
      · exact h h2
  · rw [if_neg h]
    push_neg at h
    obtain ⟨hne, hmin, hmax⟩ := h
    have hlen : a.data.length = b.data.length := by omega
    constructor
    · show Array.mk a.mindex _ = b
      rw [map_range_getD b.data a.data.length hlen, hmin]
    · constructor
      · intro _
        refine ⟨by rw [hF a, hF b]; exact hmin,
          by rw [hL a, hL b]; exact hmax, ?_⟩
        intro hnil
        exact hne (by rw [hnil]; rfl)
      · intro _
        rfl

end Array

/-- C9: an `ArrayPtrConstIterator` starts with its cursor at the array's
`First()`; the prefix and postfix `operator++` are the very same cursor
increment (cursor plus one); `AtEnd()` holds exactly when the cursor exceeds
the array's `Last()`; and dereferencing past the end goes through the
array's own bounds check and fails with `IndexError`. -/
theorem iterator_spec [Inhabited T] (a : Array T)
    (it : ArrayPtrConstIterator T) :
    (ArrayPtrConstIterator.ofArray a).m_index = a.First ∧
    (ArrayPtrConstIterator.ofArray a).m_array = a ∧
    it.advance = it.advancePost ∧
    it.advance.m_index = it.m_index + 1 ∧
    it.advancePost.m_index = it.m_index + 1 ∧
    (it.AtEnd = true ↔ it.m_index > it.m_array.Last) ∧
    (it.m_index > it.m_array.Last → it.deref = .error .indexError) := by
  refine ⟨rfl, rfl, rfl, rfl, rfl, ?_, ?_⟩
  · exact decide_eq_true_iff
  · intro h
    exact it.m_array.get_out_of_range it.m_index (Or.inr h)

theorem iterator_spec_witness :
    (ArrayPtrConstIterator.ofArray (⟨1, [3]⟩ : Array Int)).m_index
      = (⟨1, [3]⟩ : Array Int).First ∧
    (5 : Int) > (⟨⟨1, [3]⟩, 5⟩ : ArrayPtrConstIterator Int).m_array.Last ∧
    (⟨⟨1, [3]⟩, 5⟩ : ArrayPtrConstIterator Int).deref
      = .error .indexError :=
  ⟨(iterator_spec (⟨1, [3]⟩ : Array Int)
      (⟨⟨1, [3]⟩, 5⟩ : ArrayPtrConstIterator Int)).1,
    by decide,
    (iterator_spec (⟨1, [3]⟩ : Array Int)
      (⟨⟨1, [3]⟩, 5⟩ : ArrayPtrConstIterator Int)).2.2.2.2.2.2 (by decide)⟩

end Gambit
